import Mathlib

/-!
Verification development for the parchment log router.

The Go sources are embedded shallowly: records are `(category, message)`
byte-string pairs, chains (intrusive singly linked lists of records in the
source) are modelled either as `List Record` (for the purely sequential
code) or as explicit pointer structures over a heap (for the replicating
writer, whose tail-pointer discipline is itself under scrutiny).  Machine
integers that can go negative (`sizeRemaining`) are `Int`; byte values are
`Nat`.  Fallible I/O is driven by explicit oracle parameters giving the
outcome of each effectful call, and the effects themselves are recorded in
event traces so that ordering properties can be stated.
-/

deriving instance DecidableEq for Except

/-- A log record: `binfmt.Log` minus the intrusive `Next` pointer.
Category and message are arbitrary byte strings. -/
structure Record where
  category : List Nat
  message : List Nat
deriving DecidableEq

namespace Binfmt

/-- Modelled from the spec: unsigned LEB128 encoding used by the framing
codec (`binfmt`'s record codec is not among the available sources; §4.1 of
the specification defines it as 7 data bits per byte, MSB = continuation). -/
def encodeUvarint (n : Nat) : List Nat :=
  if h : n < 128 then [n]
  else (n % 128 + 128) :: encodeUvarint (n / 128)
decreasing_by
  exact Nat.div_lt_self (by omega) (by norm_num)

/-- Modelled from the spec: a record is encoded as
`varuint(len category) ++ varuint(len message) ++ category ++ message`. -/
def encodeRecord (r : Record) : List Nat :=
  encodeUvarint r.category.length ++ encodeUvarint r.message.length ++
    r.category ++ r.message

/-- Number of bytes the record occupies on the wire and on disk. -/
def encodedSize (r : Record) : Int :=
  (encodeRecord r).length

/-- Modelled from the spec: the traversal inside `binfmt.SplitChain` (the
source file defining it is not available).  Walks the chain summing encoded
sizes and detaches the suffix starting at the first record whose inclusion
would exceed the remaining budget. -/
def splitAux : List Record → Int → List Record × List Record
  | [], _ => ([], [])
  | r :: rest, budget =>
      if budget < encodedSize r then ([], r :: rest)
      else
        let p := splitAux rest (budget - encodedSize r)
        (r :: p.1, p.2)

/-- Modelled from the spec: `binfmt.SplitChain(chain, budget)` keeps a
prefix of the chain that fits in `budget` bytes and returns the detached
remainder; the first record is always kept even if it alone exceeds the
budget. -/
def splitChain : List Record → Int → List Record × List Record
  | [], _ => ([], [])
  | r :: rest, budget =>
      let p := splitAux rest (budget - encodedSize r)
      (r :: p.1, p.2)

theorem splitAux_append (l : List Record) (budget : Int) :
    (splitAux l budget).1 ++ (splitAux l budget).2 = l := by
  induction l generalizing budget with
  | nil => simp [splitAux]
  | cons r rest ih =>
      by_cases h : budget < encodedSize r
      · simp [splitAux, h]
      · simp [splitAux, h, ih]

theorem splitAux_snd_length_le (l : List Record) (budget : Int) :
    (splitAux l budget).2.length ≤ l.length := by
  induction l generalizing budget with
  | nil => simp [splitAux]
  | cons r rest ih =>
      by_cases h : budget < encodedSize r
      · simp [splitAux, h]
      · simpa [splitAux, h] using Nat.le_succ_of_le (ih (budget - encodedSize r))

theorem splitChain_snd_length_lt (r : Record) (rest : List Record) (budget : Int) :
    (splitChain (r :: rest) budget).2.length < (r :: rest).length := by
  simpa [splitChain] using
    Nat.lt_succ_of_le (splitAux_snd_length_le rest (budget - encodedSize r))

/-- Total encoded size of a list of records, as reported by
`binfmt.EncodeBuffer` on success. -/
def encodedSizeChain (l : List Record) : Int :=
  (l.map encodedSize).sum

end Binfmt

namespace Disk

/-- Observable effects of the disk spool writer, in program order. -/
inductive Ev where
  | openedSeg
  | wrote (n : Int)
  | flushed
  | synced
  | closedSeg
deriving DecidableEq

/-- State of `disk.Writer` relevant to `WriteChain`: whether a segment file
is open (`w.f != nil`), the remaining byte budget of the open segment, the
configured `MaxFileSize`, and the trace of effects performed so far. -/
structure WriterState where
  fOpen : Bool
  sizeRemaining : Int
  maxFileSize : Int
  events : List Ev
deriving DecidableEq

/-- Outcomes of the fallible operations a single `WriteChain` call can
perform: opening a new segment, each `binfmt.EncodeBuffer` call (one per
loop iteration, consumed front to back), the final `bufio.Writer.Flush`,
and `os.File.Sync`. -/
structure Oracle where
  openErr : Option String
  writeErrs : List (Option String)
  flushErr : Option String
  syncErr : Option String

/-- `disk.Writer.openBackupFile`: opens the next segment and resets the
byte budget (`MaxFileSize`, defaulting when zero). -/
def openBackupFile (st : WriterState) : WriterState :=
  let size := if st.maxFileSize = 0 then 100 * 1024 * 1024 else st.maxFileSize
  { st with fOpen := true, sizeRemaining := size,
            events := st.events ++ [Ev.openedSeg] }

/-- The main loop of `disk.Writer.WriteChain`: while the chain is non-empty,
open a segment if none is open, split the chain against the remaining
budget, encode the fitting prefix and recurse on the remainder. -/
def writeLoop (openErr : Option String) (st : WriterState) :
    List Record → List (Option String) → Except String WriterState
  | [], _ => .ok st
  | r :: rest, wErrs =>
      if st.fOpen then
        let p := Binfmt.splitChain (r :: rest) st.sizeRemaining
        match wErrs.headD none with
        | some e => .error ("Failed to write log data to disk: " ++ e)
        | none =>
            let n := Binfmt.encodedSizeChain p.1
            writeLoop openErr
              { st with sizeRemaining := st.sizeRemaining - n,
                        events := st.events ++ [Ev.wrote n] }
              p.2 wErrs.tail
      else
        match openErr with
        | some e => .error e
        | none =>
            let st1 := openBackupFile st
            let p := Binfmt.splitChain (r :: rest) st1.sizeRemaining
            match wErrs.headD none with
            | some e => .error ("Failed to write log data to disk: " ++ e)
            | none =>
                let n := Binfmt.encodedSizeChain p.1
                writeLoop openErr
                  { st1 with sizeRemaining := st1.sizeRemaining - n,
                             events := st1.events ++ [Ev.wrote n] }
                  p.2 wErrs.tail
  termination_by chain _ => chain.length
  decreasing_by
    · exact Binfmt.splitChain_snd_length_lt r rest st.sizeRemaining
    · exact Binfmt.splitChain_snd_length_lt r rest (openBackupFile st).sizeRemaining

/-- `disk.Writer.WriteChain`: the loop above followed by the source's
flush/sync epilogue, translated clause by clause:

  err := w.bw.Flush()
  if err != nil \x7b err = w.f.Sync() \x7d
  if err != nil \x7b return wrapped error \x7d
  if w.sizeRemaining <= 0 \x7b close segment \x7d

Note the epilogue calls `Sync` only when `Flush` returned an error, and
then reports `Sync`'s error in its place. -/
def WriteChain (o : Oracle) (st : WriterState) (chain : List Record) :
    Except String WriterState :=
  match writeLoop o.openErr st chain o.writeErrs with
  | .error e => .error e
  | .ok st1 =>
      if st1.fOpen then
        let st2 := { st1 with events := st1.events ++ [Ev.flushed] }
        let next : WriterState × Option String :=
          match o.flushErr with
          | none => (st2, none)
          | some _ =>
              ({ st2 with events := st2.events ++ [Ev.synced] }, o.syncErr)
        match next.2 with
        | some e => .error ("Failed to flush data to disk: " ++ e)
        | none =>
            if next.1.sizeRemaining ≤ 0 then
              .ok { next.1 with fOpen := false,
                                events := next.1.events ++ [Ev.closedSeg] }
            else .ok next.1
      else .ok st1

end Disk

namespace Router

/-- The configuration data of one output rule: `ConfigOutput`'s `Pattern`
field plus an identifier standing for the processor instance built for it.
Distinct rules receive distinct processor instances in the source (each
gets its own `NewXxxProcessor` call), so processor identity is a `Nat`.
The compiled regular expression is kept outside this structure, as a
matching oracle `String → List Nat → Bool`, since regex semantics are not
at issue. -/
structure ConfigOutput where
  pattern : String
  processor : Nat
deriving DecidableEq

/-- The index the `Config.Compile` validation loop leaves in `defaultIndex`:
it assigns `defaultIndex = ii` for every entry whose pattern is empty, so
the final value is the index of the last such entry (`-1`, here `none`,
when there is none). -/
def defaultIndex (outs : List ConfigOutput) : Option Nat :=
  outs.enum.foldl (fun acc p => if p.2.pattern = "" then some p.1 else acc) none

/-- The relocation step at the end of `Config.Compile` (the block under
the comment `ensure the default pattern is the first entry`), translated
clause by clause.  With no default, the source reassigns
`config.Outputs = make(OutputChain, len+1)` and then copies from the
freshly made (all-nil) slice into itself, yielding `len+1` nil entries.
With a default at index `d`, the source shifts entries `0..d-1` up by one,
places the default at index 0 and leaves entries `d+1..` where they were. -/
def compileOutputs (outs : List ConfigOutput) : List (Option ConfigOutput) :=
  match defaultIndex outs with
  | none => List.replicate (outs.length + 1) none
  | some d =>
      outs[d]?.elim [] (fun dflt =>
        some dflt :: ((outs.take d).map some ++ (outs.drop (d + 1)).map some))

/-- Whether an entry of a compiled chain matches a category under the
regex oracle `R`.  A `none` entry never matches here; in the source a nil
entry at index ≥ 1 would instead crash `FindProcessor`, and every theorem
below that relies on this function carries a hypothesis excluding nil
entries past index 0. -/
def entryMatches (R : String → List Nat → Bool) (o : Option ConfigOutput)
    (category : List Nat) : Bool :=
  match o with
  | some r => R r.pattern category
  | none => false

/-- `OutputChain.FindProcessor`: try the regular expressions of entries
`oc[1:]` in order, first match wins; otherwise fall back on `oc[0]` when it
is non-nil, and return nil (`none`) when there is no default. -/
def FindProcessor (R : String → List Nat → Bool) (oc : List (Option ConfigOutput))
    (category : List Nat) : Option Nat :=
  match (oc.drop 1).find? (fun o => entryMatches R o category) with
  | some (some r) => some r.processor
  | some none => none
  | none =>
      match oc.head? with
      | some (some d) => some d.processor
      | _ => none

/-- The walk inside `OutputChain.SplitForProcessor`: keep consuming records
as long as the next record maps to the same processor `p`; detach the
chain at the first record that maps to a different one. -/
def splitWalk (R : String → List Nat → Bool) (oc : List (Option ConfigOutput))
    (p : Option Nat) : List Record → List Record × List Record
  | [] => ([], [])
  | x :: xs =>
      if FindProcessor R oc x.category = p then
        let q := splitWalk R oc p xs
        (x :: q.1, q.2)
      else ([], x :: xs)

/-- `OutputChain.SplitForProcessor`: the processor of the head record, the
prefix of the chain routed to it (the head node plus the records consumed
by the walk), and the detached remainder. -/
def SplitForProcessor (R : String → List Nat → Bool)
    (oc : List (Option ConfigOutput)) :
    List Record → Option Nat × List Record × List Record
  | [] => (none, [], [])
  | r :: rest =>
      let p := FindProcessor R oc r.category
      let q := splitWalk R oc p rest
      (p, r :: q.1, q.2)

end Router

namespace Net

/-- Modelled from the spec: command byte for CONNECT (the source file with
the protocol constants is not available; §4.2 fixes the command bytes). -/
def CmdConnect : Nat := 1

/-- Modelled from the spec: command byte for CONNECT_ACK. -/
def CmdConnectAck : Nat := 2

/-- Modelled from the spec: command byte for CHAIN. -/
def CmdChain : Nat := 3

/-- Modelled from the spec: command byte for CHAIN_ACK. -/
def CmdChainAck : Nat := 4

/-- Errors a session operation can surface.  `eof` is `io.EOF`, which the
serve loop treats as a clean shutdown. -/
inductive RErr where
  | eof
  | ioFail
  | corrupt
  | malformed
deriving DecidableEq

/-- Modelled from the spec: LEB128 decoding used by `binfmt.Decode`
(7 data bits per byte, MSB = continuation). -/
def decodeUvarint : List Nat → Option (Nat × List Nat)
  | [] => none
  | b :: rest =>
      if b < 128 then some (b, rest)
      else
        match decodeUvarint rest with
        | none => none
        | some (n, rest1) => some ((b - 128) + 128 * n, rest1)

/-- Take exactly `n` bytes from the stream, failing on truncation. -/
def readBytes (n : Nat) (l : List Nat) : Option (List Nat × List Nat) :=
  if n ≤ l.length then some (l.take n, l.drop n) else none

/-- Modelled from the spec: `binfmt.Decode` reads
`varuint(len category) || varuint(len message) || category || message`
and fails with a decode error on truncation. -/
def decodeRecord (l : List Nat) : Option (Record × List Nat) := do
  let (nc, l1) ← decodeUvarint l
  let (nm, l2) ← decodeUvarint l1
  let (cat, l3) ← readBytes nc l2
  let (msg, l4) ← readBytes nm l3
  some (⟨cat, msg⟩, l4)

/-- The decode loop of `Reader.Read`: `count` records in sequence. -/
def decodeRecords : Nat → List Nat → Option (List Record × List Nat)
  | 0, l => some ([], l)
  | n + 1, l => do
      let (r, l1) ← decodeRecord l
      let (rs, l2) ← decodeRecords n l1
      some (r :: rs, l2)

/-- Little-endian `u32` from the first four bytes of the stream. -/
def readU32 : List Nat → Option (Nat × List Nat)
  | b0 :: b1 :: b2 :: b3 :: rest =>
      some (b0 + 256 * (b1 + 256 * (b2 + 256 * b3)), rest)
  | _ => none

/-- `net.Reader.Read` over an explicit byte stream: read the 5-byte
header (EOF when the stream is empty, I/O failure when it is shorter
than the header), require the CHAIN command byte, decode `count` records,
and return the chain head — which is nil exactly when no record was
decoded — together with the stored `lastReadCount` and the rest of the
stream. -/
def readerRead (input : List Nat) :
    Except RErr (Option (List Record) × Nat × List Nat) :=
  match input with
  | [] => .error RErr.eof
  | b :: rest =>
      match readU32 rest with
      | none => .error RErr.ioFail
      | some (count, rest1) =>
          if b = CmdChain then
            match decodeRecords count rest1 with
            | none => .error RErr.malformed
            | some (recs, rest2) =>
                .ok ((if recs.isEmpty then none else some recs), count, rest2)
          else .error RErr.corrupt

/-- Events of one connection's serve loop, in program order. -/
inductive SEv where
  | dispatched (c : List Record) (ok : Bool)
  | acked (c : List Record)
deriving DecidableEq

/-- How the serve loop ended: `graceful` is the `io.EOF` break (serve
returns nil), `failed` is an error return, `scriptOver` is the modelling
artifact of running out of scripted read results. -/
inductive SRes where
  | graceful
  | failed
  | scriptOver
deriving DecidableEq

/-- One scripted iteration of the serve loop: the pair returned by
`nr.Read` and, when the loop reaches the acknowledgement, the result of
`nr.AcknowledgeLast`. -/
structure SItem where
  chain : Option (List Record)
  readErr : Option RErr
  ackErr : Option RErr
deriving DecidableEq

/-- `Input.serve`'s read loop, driven by a script of read outcomes and a
dispatch function standing for `InputManager.processChain`.  Each
iteration follows the source: when the chain is non-nil, dispatch first (a
dispatch error returns immediately, before any acknowledgement), then send
the acknowledgement and let its error replace the read error; then break
on `io.EOF` or return on any other error. -/
def serve (dispatch : List Record → Option String) :
    List SItem → List SEv × SRes
  | [] => ([], SRes.scriptOver)
  | it :: rest =>
      match it.chain with
      | some c =>
          match dispatch c with
          | some _ => ([SEv.dispatched c false], SRes.failed)
          | none =>
              match it.ackErr with
              | some RErr.eof =>
                  ([SEv.dispatched c true, SEv.acked c], SRes.graceful)
              | some _ =>
                  ([SEv.dispatched c true, SEv.acked c], SRes.failed)
              | none =>
                  let q := serve dispatch rest
                  (SEv.dispatched c true :: SEv.acked c :: q.1, q.2)
      | none =>
          match it.readErr with
          | some RErr.eof => ([], SRes.graceful)
          | some _ => ([], SRes.failed)
          | none => serve dispatch rest

end Net

namespace DailyFile

/-- Local time is modelled as a second count in a fixed locale with
`86400`-second days; the calendar arithmetic of `time.Date` is not at
issue, only the rotation comparison. -/
def dayLen : Nat := 86400

/-- The `tomorrow` computed on rotation:
`time.Date(now.Year(), now.Month(), now.Day()+1, 0, 0, 0, 0, loc)`,
i.e. the first instant of the next local day. -/
def nextMidnight (now : Nat) : Nat := (now / dayLen + 1) * dayLen

/-- Observable actions of `SafeDailyFile.GetWriter`, in program order. -/
inductive REv where
  | waitedHolders
  | closedOld (w : Nat)
  | opened (day : Nat)
deriving DecidableEq

/-- `SafeDailyFile`'s synchronised state: the rotation deadline, the
current writer (a fresh identifier per opened file) and the outstanding
holder count tracked by the waitgroup. -/
structure SDF where
  nextRotation : Nat
  writer : Option Nat
  inflight : Nat
deriving DecidableEq

/-- `SafeDailyFile.GetWriter`: rotation is guarded by
`now.After(sdf.nextRotation)`, i.e. strictly `nextRotation < now`.  On
rotation the deadline is advanced first, then the waitgroup is drained,
any current writer's file closed, and the dated file opened (`openErr`
gives the outcome of `MkdirAll`/`OpenFile`; on failure the source returns
before installing a writer or touching the waitgroup).  Outside rotation
the existing writer is returned as is.  Either successful exit increments
the holder count. -/
def GetWriter (sdf : SDF) (now newId : Nat) (openErr : Option String) :
    SDF × List REv × Except String (Option Nat) :=
  if sdf.nextRotation < now then
    let s1 := { sdf with nextRotation := nextMidnight now }
    let evs := REv.waitedHolders ::
      (match sdf.writer with | some w => [REv.closedOld w] | none => [])
    match openErr with
    | some e => (s1, evs, .error e)
    | none =>
        ({ s1 with writer := some newId, inflight := s1.inflight + 1 },
         evs ++ [REv.opened (now / dayLen)], .ok (some newId))
  else
    ({ sdf with inflight := sdf.inflight + 1 }, [], .ok sdf.writer)

end DailyFile

namespace NetWriter

/-- The error `netwriter.W.AddMessage` returns when the writer was closed. -/
def closedErrMsg : String := "Attempt to write to a closed writer"

/-- The producer-side writer's shared state.  In the source the pending
queue is an intrusive list with head `pending` and tail `pendingTail`;
both are always set together (`Run` clears both, `AddMessage` sets both),
so `pendingTail == nil` coincides with an empty queue and the pair is
modelled as one list. -/
structure W where
  closed : Bool
  pending : List Record
deriving DecidableEq

/-- `netwriter.W.Close`: set the closed flag, signal, return nil. -/
def Close (w : W) : W × Option String :=
  ({ w with closed := true }, none)

/-- `netwriter.W.AddMessage`: build the record (timestamp prefix per the
configured format, here the caller-supplied `tstamp` bytes, then the
payload), read the closed flag, enqueue unconditionally, and only then
report the closed error if the flag was set. -/
def AddMessage (w : W) (tstamp category msg : List Nat) : W × Option String :=
  let m : Record := ⟨category, tstamp ++ msg⟩
  let wasClosed := w.closed
  let pending1 := if w.pending.isEmpty then [m] else w.pending ++ [m]
  ({ w with pending := pending1 },
   if wasClosed then some closedErrMsg else none)

end NetWriter

namespace Replicate

/-- Heap addresses of chain nodes. -/
abbrev Ptr := Nat

/-- One `binfmt.Log` node: its record payload and its `Next` pointer
(`none` is Go's nil). -/
structure Node where
  val : Record
  next : Option Ptr
deriving DecidableEq

/-- The heap of chain nodes; a pointer is an index into this list. -/
abbrev Heap := List Node

/-- The mutex-protected shared state of `replicate.Writer`. -/
structure Vars where
  closed : Bool
  diskErr : Option String
  incoming : Option Ptr
  incomingTail : Option Ptr
deriving DecidableEq

/-- Assignment to a node's `Next` field; a dangling pointer leaves the
heap unchanged (the theorems below only ever reach this through valid
pointers). -/
def setNext (h : Heap) (p : Ptr) (q : Option Ptr) : Heap :=
  match h[p]? with
  | some nd => h.set p { nd with next := q }
  | none => h

/-- The tail walk at the top of `replicate.Writer.WriteChain`
(`tail := chain; for tail.Next != nil ...`), fuelled so that it is total;
`none` means the walk did not reach a nil `Next` (dangling pointer or
cycle), which in the source would be a crash or divergence. -/
def findTail (h : Heap) : Nat → Ptr → Option Ptr
  | 0, _ => none
  | fuel + 1, p =>
      match h[p]? with
      | none => none
      | some nd =>
          match nd.next with
          | none => some p
          | some q => findTail h fuel q

/-- `replicate.Writer.WriteChain`: walk to the chain's tail, then under
the lock return `diskErr` if set (touching nothing), else link the chain
onto the queue — through `incomingTail.Next` when the queue is non-empty —
and update `incomingTail`; the condition variable is always signalled (the
final `Bool`).  The `none` results are the crashes of the source: a bad
chain pointer, or dereferencing a nil `incomingTail` while `incoming` is
non-nil. -/
def WriteChain (h : Heap) (v : Vars) (chainP : Ptr) :
    Option (Heap × Vars × Option String × Bool) :=
  match findTail h h.length chainP with
  | none => none
  | some tailP =>
      match v.diskErr with
      | some e => some (h, v, some e, true)
      | none =>
          match v.incoming with
          | none =>
              some (h, { v with incoming := some chainP,
                                incomingTail := some tailP }, none, true)
          | some _ =>
              match v.incomingTail with
              | none => none
              | some t =>
                  some (setNext h t (some chainP),
                        { v with incomingTail := some tailP }, none, true)

/-- The detach at the top of `runConnected`'s loop:
`incoming, tail := w.incoming, w.incomingTail; w.incoming = nil;
w.incomingTail = nil`. -/
def connectedDetach (v : Vars) : Vars × Option Ptr × Option Ptr :=
  ({ v with incoming := none, incomingTail := none }, v.incoming, v.incomingTail)

/-- `runConnected`'s failure path after a send error:
`tail.Next = w.incoming; w.incoming = incoming` — note `incomingTail` is
left untouched. -/
def connectedSendFailed (h : Heap) (v : Vars) (headP tailP : Ptr) :
    Heap × Vars :=
  (setNext h tailP v.incoming, { v with incoming := some headP })

/-- The queue well-formedness the next `WriteChain` relies on: whenever
`incoming` is non-nil, `incomingTail` holds the last node reachable from
it. -/
def tailInvHolds (h : Heap) (v : Vars) : Bool :=
  match v.incoming with
  | none => true
  | some p =>
      match findTail h h.length p with
      | none => false
      | some t => v.incomingTail == some t

/-- The chain reachable from a pointer: `IsChain h op ps` states that
following `Next` from `op` visits exactly the nodes at `ps` and ends at
nil. -/
inductive IsChain (h : Heap) : Option Ptr → List Ptr → Prop where
  | nil : IsChain h none []
  | cons {p : Ptr} {nd : Node} {ps : List Ptr} (hget : h[p]? = some nd)
      (htail : IsChain h nd.next ps) : IsChain h (some p) (p :: ps)

theorem isChain_nil_shape {h : Heap} {op : Option Ptr}
    (hc : IsChain h op []) : op = none := by
  cases hc; rfl

theorem isChain_cons_shape {h : Heap} {op : Option Ptr} {a : Ptr} {l : List Ptr}
    (hc : IsChain h op (a :: l)) :
    op = some a ∧ ∃ nd, h[a]? = some nd ∧ IsChain h nd.next l := by
  cases hc with
  | cons hget htail => exact ⟨rfl, _, hget, htail⟩

theorem isChain_none_eq {h : Heap} {ps : List Ptr}
    (hc : IsChain h none ps) : ps = [] := by
  cases hc; rfl

theorem isChain_some_ne_nil {h : Heap} {p : Ptr} {ps : List Ptr}
    (hc : IsChain h (some p) ps) : ps ≠ [] := by
  cases hc; simp

theorem isChain_det {h : Heap} {op : Option Ptr} {ps : List Ptr}
    (h1 : IsChain h op ps) :
    ∀ {qs : List Ptr}, IsChain h op qs → ps = qs := by
  induction h1 with
  | nil => intro qs h2; exact (isChain_none_eq h2).symm
  | cons hget htail ih =>
      intro qs h2
      cases h2 with
      | cons hget2 htail2 =>
          have hnd := Option.some.inj (hget.symm.trans hget2)
          subst hnd
          exact congrArg _ (ih htail2)

theorem isChain_suffix {h : Heap} {op : Option Ptr} {ps : List Ptr}
    (hc : IsChain h op ps) :
    ∀ {q : Ptr}, q ∈ ps → ∃ s, s <:+ ps ∧ IsChain h (some q) s := by
  induction hc with
  | nil => intro q hq; simp at hq
  | cons hget htail ih =>
      intro q hq
      rcases List.mem_cons.mp hq with rfl | hq1
      · exact ⟨_, List.suffix_refl _, .cons hget htail⟩
      · obtain ⟨s, hs, hcs⟩ := ih hq1
        exact ⟨s, hs.trans (List.suffix_cons _ _), hcs⟩

theorem isChain_nodup {h : Heap} {op : Option Ptr} {ps : List Ptr}
    (hc : IsChain h op ps) : ps.Nodup := by
  induction hc with
  | nil => simp
  | cons hget htail ih =>
      refine List.nodup_cons.mpr ⟨fun hmem => ?_, ih⟩
      obtain ⟨s, hs, hcs⟩ := isChain_suffix htail hmem
      have heq := isChain_det hcs (.cons hget htail)
      have hlen := hs.length_le
      rw [heq] at hlen
      simp at hlen

theorem isChain_mem_lt {h : Heap} {op : Option Ptr} {ps : List Ptr}
    (hc : IsChain h op ps) : ∀ q ∈ ps, q < h.length := by
  induction hc with
  | nil => simp
  | cons hget htail ih =>
      intro q hq
      rcases List.mem_cons.mp hq with rfl | hq1
      · obtain ⟨hlt, -⟩ := List.getElem?_eq_some.mp hget
        exact hlt
      · exact ih q hq1

theorem isChain_length_le {h : Heap} {op : Option Ptr} {ps : List Ptr}
    (hc : IsChain h op ps) : ps.length ≤ h.length := by
  have hsub : ps ⊆ List.range h.length := fun q hq =>
    List.mem_range.mpr (isChain_mem_lt hc q hq)
  simpa using (List.subperm_of_subset (isChain_nodup hc) hsub).length_le

theorem isChain_last {h : Heap} {op : Option Ptr} {ps : List Ptr}
    (hc : IsChain h op ps) (hne : ps ≠ []) :
    ∃ t nd, ps.getLast? = some t ∧ h[t]? = some nd ∧ nd.next = none := by
  induction hc with
  | nil => exact absurd rfl hne
  | cons hget htail ih =>
      rename_i p nd ps
      cases hps : ps with
      | nil =>
          subst hps
          have hnone := isChain_nil_shape htail
          exact ⟨p, nd, rfl, hget, hnone⟩
      | cons b l =>
          subst hps
          obtain ⟨t, nd1, hlast, hget1, hnext1⟩ := ih (by simp)
          exact ⟨t, nd1, by simpa [List.getLast?_cons_cons] using hlast,
                 hget1, hnext1⟩

theorem findTail_eq {h : Heap} (ps : List Ptr) :
    ∀ (p : Ptr) (fuel : Nat), IsChain h (some p) ps → ps.length ≤ fuel →
      findTail h fuel p = ps.getLast? := by
  induction ps with
  | nil => intro p fuel hc _; exact absurd rfl (isChain_some_ne_nil hc)
  | cons a l ih =>
      intro p fuel hc hfuel
      obtain ⟨hpa, nd, hget, htail⟩ := isChain_cons_shape hc
      have hpa' : a = p := Option.some.inj hpa.symm
      subst hpa'
      cases fuel with
      | zero => simp at hfuel
      | succ f =>
          cases hn : nd.next with
          | none =>
              rw [hn] at htail
              have hl := isChain_none_eq htail
              subst hl
              simp [findTail, hget, hn]
          | some q =>
              rw [hn] at htail
              have hlne := isChain_some_ne_nil htail
              have := ih q f htail (by simp at hfuel; omega)
              cases hll : l with
              | nil => exact absurd hll hlne
              | cons b l2 =>
                  subst hll
                  simp [findTail, hget, hn, List.getLast?_cons_cons] at this ⊢
                  exact this

theorem setNext_getElem_ne (h : Heap) (t : Ptr) (x : Option Ptr) (p : Ptr)
    (hne : p ≠ t) : (setNext h t x)[p]? = h[p]? := by
  unfold setNext
  cases hg : h[t]? with
  | none => rfl
  | some nd => exact List.getElem?_set_ne (fun hh => hne hh.symm)

theorem setNext_getElem_self (h : Heap) (t : Ptr) (x : Option Ptr) {nd : Node}
    (hget : h[t]? = some nd) :
    (setNext h t x)[t]? = some { nd with next := x } := by
  obtain ⟨hlt, -⟩ := List.getElem?_eq_some.mp hget
  unfold setNext
  rw [hget]
  exact List.getElem?_set_self hlt

theorem setNext_val (h : Heap) (t : Ptr) (x : Option Ptr) (p : Ptr) :
    ((setNext h t x)[p]?).map Node.val = (h[p]?).map Node.val := by
  by_cases hpt : p = t
  · subst hpt
    cases hg : h[p]? with
    | none => simp [setNext, hg]
    | some nd => simp [setNext_getElem_self h p x hg, hg]
  · rw [setNext_getElem_ne h t x p hpt]

theorem isChain_frame {h : Heap} {t : Ptr} {x : Option Ptr} {op : Option Ptr}
    {ps : List Ptr} (hc : IsChain h op ps) (ht : t ∉ ps) :
    IsChain (setNext h t x) op ps := by
  induction hc with
  | nil => exact .nil
  | cons hget htail ih =>
      rename_i p nd ps
      have hpt : p ≠ t := fun hp => ht (hp ▸ List.mem_cons_self p ps)
      exact .cons (by rw [setNext_getElem_ne h t x p hpt]; exact hget)
        (ih fun hmem => ht (List.mem_cons_of_mem _ hmem))

theorem isChain_append {h : Heap} {c0 : Ptr} {cs : List Ptr}
    (hc : IsChain h (some c0) cs) :
    ∀ (ps : List Ptr) (op : Option Ptr) (t : Ptr), IsChain h op ps →
      (∀ q ∈ ps, q ∉ cs) → ps.getLast? = some t →
      IsChain (setNext h t (some c0)) op (ps ++ cs) := by
  intro ps
  induction ps with
  | nil => intro op t _ _ hlast; simp at hlast
  | cons a l ih =>
      intro op t hq hdisj hlast
      obtain ⟨hpa, nd, hget, htail⟩ := isChain_cons_shape hq
      subst hpa
      cases hll : l with
      | nil =>
          subst hll
          have ht : a = t := by simpa using hlast
          subst ht
          have hnone := isChain_nil_shape htail
          refine IsChain.cons (setNext_getElem_self h a (some c0) hget) ?_
          exact isChain_frame hc (hdisj a (by simp))
      | cons b l2 =>
          subst hll
          have hlast2 : (b :: l2).getLast? = some t := by
            simpa [List.getLast?_cons_cons] using hlast
          cases hn : nd.next with
          | none =>
              rw [hn] at htail
              exact absurd (isChain_none_eq htail) (by simp)
          | some q =>
              rw [hn] at htail
              have hnodup := isChain_nodup hq
              have hanmem : a ∉ b :: l2 := (List.nodup_cons.mp hnodup).1
              have htmem : t ∈ b :: l2 := by
                have hx : t ∈ (b :: l2).getLast? := by rw [hlast2]; rfl
                obtain ⟨hh, rfl⟩ := List.mem_getLast?_eq_getLast hx
                exact List.getLast_mem hh
              have hat : a ≠ t := fun hp => hanmem (hp ▸ htmem)
              have hget2 : (setNext h t (some c0))[a]? = some nd := by
                rw [setNext_getElem_ne h t (some c0) a hat]
                exact hget
              refine IsChain.cons hget2 ?_
              rw [hn]
              exact ih (some q) t htail
                (fun r hr => hdisj r (List.mem_cons_of_mem _ hr)) hlast2

end Replicate

/-! ## Claim theorems -/

/-- Claim C1.  The claim is refuted by the code: the epilogue of
`disk.Writer.WriteChain` calls `Sync` only when `Flush` has already
failed.  On a one-record chain with all I/O succeeding, `WriteChain`
returns success with trace `[openedSeg, wrote 4, flushed]` — no `synced`
event, so the segment is never fsynced before a successful return.
Moreover, with `Flush` failing and `Sync` succeeding, the call still
returns success, masking the flush failure. -/
theorem c1_disk_writeChain_fsync_bug :
    Disk.WriteChain ⟨none, [none], none, none⟩ ⟨false, 0, 200, []⟩ [⟨[65], [66]⟩]
      = .ok ⟨true, 196, 200, [.openedSeg, .wrote 4, .flushed]⟩ ∧
    Disk.Ev.synced ∉ [Disk.Ev.openedSeg, Disk.Ev.wrote 4, Disk.Ev.flushed] ∧
    Disk.WriteChain ⟨none, [none], some "flush failure", none⟩ ⟨false, 0, 200, []⟩
        [⟨[65], [66]⟩]
      = .ok ⟨true, 196, 200, [.openedSeg, .wrote 4, .flushed, .synced]⟩ := by
  refine ⟨?_, by decide, ?_⟩ <;>
    simp [Disk.WriteChain, Disk.writeLoop, Disk.openBackupFile, Binfmt.splitChain,
          Binfmt.splitAux, Binfmt.encodedSizeChain, Binfmt.encodedSize,
          Binfmt.encodeRecord, Binfmt.encodeUvarint]

/-- Claim C2.  The one-default case does relocate the default to index 0
and keeps the other rules in configured order (third conjunct), but the
zero-default case is refuted: compiling a single rule with a non-empty
pattern yields `[none, none]` — the configured rule is lost entirely,
because the source overwrites `config.Outputs` with a fresh all-nil slice
before copying from it. -/
theorem c2_compile_default_relocation_bug :
    Router.compileOutputs [⟨"a", 1⟩] = [none, none] ∧
    some (⟨"a", 1⟩ : Router.ConfigOutput) ∉ Router.compileOutputs [⟨"a", 1⟩] ∧
    Router.compileOutputs [⟨"x", 1⟩, ⟨"", 2⟩, ⟨"y", 3⟩]
      = [some ⟨"", 2⟩, some ⟨"x", 1⟩, some ⟨"y", 3⟩] := by
  exact ⟨by decide, by decide, by decide⟩

/-- Claim C7 counterexample.  At a state whose rotation deadline is
`432000` (midnight of day 5), a `GetWriter` call at exactly `now = 432000`
does not rotate: it returns the existing writer `7`, produces no rotation
events, and does not hand out the fresh writer `9` — refuting the claim
that a call at exactly `next_rotation` rotates (the source guard is the
strict `now.After(sdf.nextRotation)`). -/
theorem c7_rotation_at_exact_boundary :
    DailyFile.GetWriter ⟨432000, some 7, 0⟩ 432000 9 none
      = (⟨432000, some 7, 1⟩, [], .ok (some 7)) ∧
    (DailyFile.GetWriter ⟨432000, some 7, 0⟩ 432000 9 none).2.2 ≠ .ok (some 9) ∧
    DailyFile.REv.waitedHolders ∉
      (DailyFile.GetWriter ⟨432000, some 7, 0⟩ 432000 9 none).2.1 := by
  decide

/-- Claim C7, amended: `GetWriter` rotates iff the current local time is
strictly greater than `next_rotation` (a call at exactly `next_rotation`
returns the existing writer unchanged); when it rotates with the file
operations succeeding, it waits for outstanding holders, closes any
current writer, opens the date-templated file and sets `next_rotation` to
the next local midnight; in both outcomes the holder count is
incremented. -/
theorem c7_getWriter_rotates_iff_strictly_after (sdf : DailyFile.SDF)
    (now newId : Nat) (openErr : Option String) :
    (now ≤ sdf.nextRotation →
       DailyFile.GetWriter sdf now newId openErr =
         ({ sdf with inflight := sdf.inflight + 1 }, [], .ok sdf.writer)) ∧
    (sdf.nextRotation < now → openErr = none →
       DailyFile.GetWriter sdf now newId openErr =
         (⟨DailyFile.nextMidnight now, some newId, sdf.inflight + 1⟩,
          DailyFile.REv.waitedHolders ::
            ((match sdf.writer with
              | some w => [DailyFile.REv.closedOld w]
              | none => []) ++ [DailyFile.REv.opened (now / DailyFile.dayLen)]),
          .ok (some newId))) ∧
    (DailyFile.REv.waitedHolders ∈ (DailyFile.GetWriter sdf now newId openErr).2.1 ↔
       sdf.nextRotation < now) := by
  refine ⟨?_, ?_, ?_⟩
  · intro hle
    have hnlt : ¬ sdf.nextRotation < now := by omega
    simp [DailyFile.GetWriter, hnlt]
  · intro hlt hoe
    subst hoe
    simp [DailyFile.GetWriter, hlt]
  · by_cases hlt : sdf.nextRotation < now
    · cases hoe : openErr with
      | some e => simp [DailyFile.GetWriter, hlt, hoe]
      | none => simp [DailyFile.GetWriter, hlt, hoe]
    · simp [DailyFile.GetWriter, hlt]

/-- Witness for the amended C7 theorem at a concrete state: one day past
the deadline, with a current writer, rotation succeeds and installs the
fresh writer. -/
theorem c7_getWriter_rotates_iff_strictly_after_witness :
    DailyFile.GetWriter ⟨432000, some 7, 2⟩ 450000 9 none =
      (⟨518400, some 9, 3⟩,
       [DailyFile.REv.waitedHolders, DailyFile.REv.closedOld 7,
        DailyFile.REv.opened 5],
       .ok (some 9)) := by
  have h := (c7_getWriter_rotates_iff_strictly_after ⟨432000, some 7, 2⟩
    450000 9 none).2.1 (by decide) rfl
  simpa [DailyFile.nextMidnight, DailyFile.dayLen] using h

/-- Claim C9: calling `AddMessage` after `Close` returns the
closed-writer error, yet the message — category plus timestamp-prefixed
payload — is still appended to the pending queue, and the closed flag is
unchanged: the enqueue is unconditional and the error only reflects the
flag read at entry. -/
theorem c9_addMessage_after_close (w : NetWriter.W)
    (tstamp category msg : List Nat) :
    (NetWriter.AddMessage (NetWriter.Close w).1 tstamp category msg).2
      = some NetWriter.closedErrMsg ∧
    (NetWriter.AddMessage (NetWriter.Close w).1 tstamp category msg).1.pending
      = (NetWriter.Close w).1.pending ++ [⟨category, tstamp ++ msg⟩] ∧
    (NetWriter.AddMessage (NetWriter.Close w).1 tstamp category msg).1.closed
      = true := by
  refine ⟨rfl, ?_, rfl⟩
  cases hp : w.pending with
  | nil => simp [NetWriter.AddMessage, NetWriter.Close, hp]
  | cons a l => simp [NetWriter.AddMessage, NetWriter.Close, hp]

/-- Claim C10: a CHAIN frame whose count field is zero makes
`Reader.Read` return a nil chain with a nil error (first conjunct, for an
arbitrary remaining stream), and the serve loop forwards such an
iteration without dispatching or acknowledging anything — it is
literally a no-op iteration (second conjunct, for any dispatch function
and any scripted continuation). -/
theorem c10_zero_count_chain_no_ack :
    (∀ rest : List Nat,
       Net.readerRead (Net.CmdChain :: 0 :: 0 :: 0 :: 0 :: rest)
         = .ok (none, 0, rest)) ∧
    (∀ (dispatch : List Record → Option String) (ackErr : Option Net.RErr)
       (rest : List Net.SItem),
       Net.serve dispatch ({ chain := none, readErr := none, ackErr := ackErr } :: rest)
         = Net.serve dispatch rest) := by
  exact ⟨fun rest => rfl, fun dispatch ackErr rest => rfl⟩

theorem splitWalk_sameProcessor (R : String → List Nat → Bool)
    (oc : List (Option Router.ConfigOutput)) (p : Option Nat) :
    ∀ l : List Record, ∀ x ∈ (Router.splitWalk R oc p l).1,
      Router.FindProcessor R oc x.category = p := by
  intro l
  induction l with
  | nil => intro x hx; simp [Router.splitWalk] at hx
  | cons a rest ih =>
      intro x hx
      by_cases ha : Router.FindProcessor R oc a.category = p
      · simp [Router.splitWalk, ha] at hx
        rcases hx with rfl | hx1
        · exact ha
        · exact ih x hx1
      · simp [Router.splitWalk, ha] at hx

theorem splitWalk_remainder (R : String → List Nat → Bool)
    (oc : List (Option Router.ConfigOutput)) (p : Option Nat) :
    ∀ l : List Record, (Router.splitWalk R oc p l).2 = [] ∨
      ∃ y ys, (Router.splitWalk R oc p l).2 = y :: ys ∧
        Router.FindProcessor R oc y.category ≠ p := by
  intro l
  induction l with
  | nil => left; simp [Router.splitWalk]
  | cons a rest ih =>
      by_cases ha : Router.FindProcessor R oc a.category = p
      · simpa [Router.splitWalk, ha] using ih
      · right
        exact ⟨a, rest, by simp [Router.splitWalk, ha], ha⟩

theorem splitWalk_append (R : String → List Nat → Bool)
    (oc : List (Option Router.ConfigOutput)) (p : Option Nat) :
    ∀ l : List Record,
      (Router.splitWalk R oc p l).1 ++ (Router.splitWalk R oc p l).2 = l := by
  intro l
  induction l with
  | nil => simp [Router.splitWalk]
  | cons a rest ih =>
      by_cases ha : Router.FindProcessor R oc a.category = p <;>
        simp [Router.splitWalk, ha, ih]

/-- Claim C5: for a non-empty chain, `SplitForProcessor` returns the
processor `FindProcessor` assigns to the head's category; every record of
the returned head segment maps to that processor; the remainder is nil or
begins with the first record mapping to a different processor; and head
segment plus remainder reproduce the original chain.  The hypothesis
restricts to compiled chains, whose entries past index 0 are non-nil (on
a nil entry the source's `FindProcessor` would crash instead). -/
theorem c5_splitForProcessor_spec (R : String → List Nat → Bool)
    (oc : List (Option Router.ConfigOutput)) (r : Record) (rest : List Record)
    (_hwf : ∀ o ∈ oc.drop 1, o.isSome = true) :
    (Router.SplitForProcessor R oc (r :: rest)).1
        = Router.FindProcessor R oc r.category ∧
    (∀ x ∈ (Router.SplitForProcessor R oc (r :: rest)).2.1,
        Router.FindProcessor R oc x.category
          = (Router.SplitForProcessor R oc (r :: rest)).1) ∧
    ((Router.SplitForProcessor R oc (r :: rest)).2.2 = [] ∨
      ∃ y ys, (Router.SplitForProcessor R oc (r :: rest)).2.2 = y :: ys ∧
        Router.FindProcessor R oc y.category
          ≠ (Router.SplitForProcessor R oc (r :: rest)).1) ∧
    (Router.SplitForProcessor R oc (r :: rest)).2.1
        ++ (Router.SplitForProcessor R oc (r :: rest)).2.2 = r :: rest := by
  refine ⟨rfl, ?_, ?_, ?_⟩
  · intro x hx
    simp only [Router.SplitForProcessor] at hx ⊢
    rcases List.mem_cons.mp hx with rfl | hx1
    · rfl
    · exact splitWalk_sameProcessor R oc _ rest x hx1
  · simpa only [Router.SplitForProcessor] using
      splitWalk_remainder R oc (Router.FindProcessor R oc r.category) rest
  · simp only [Router.SplitForProcessor, List.cons_append, List.cons.injEq,
      true_and]
    exact splitWalk_append R oc (Router.FindProcessor R oc r.category) rest

/-- Witness for C5: on the chain `[("a","x"), ("a","y"), ("b","z")]` with
default processor 0 and one rule `"a" ↦ 1`, the record kept second in the
head segment maps to the processor returned for the head. -/
theorem c5_splitForProcessor_spec_witness :
    Router.FindProcessor (fun pat c => pat == "a" && c == [97])
        [some ⟨"", 0⟩, some ⟨"a", 1⟩] ([97] : List Nat)
      = (Router.SplitForProcessor (fun pat c => pat == "a" && c == [97])
          [some ⟨"", 0⟩, some ⟨"a", 1⟩]
          [⟨[97], [120]⟩, ⟨[97], [121]⟩, ⟨[98], [122]⟩]).1 := by
  have h := c5_splitForProcessor_spec (fun pat c => pat == "a" && c == [97])
    [some ⟨"", 0⟩, some ⟨"a", 1⟩] ⟨[97], [120]⟩
    [⟨[97], [121]⟩, ⟨[98], [122]⟩] (by decide)
  exact h.2.1 ⟨[97], [121]⟩ (by decide)

/-- Claim C6: with the default at index 0, `FindProcessor` returns the
default's processor iff no non-default entry matches the category, and
when some entry matches it returns the processor of the first matching
entry in configured order.  `hwf` restricts to compiled chains (non-nil
entries past index 0); `hdist` reflects that each configured rule gets its
own processor instance, so processor identities are distinct. -/
theorem c6_findProcessor_first_match (R : String → List Nat → Bool)
    (d : Router.ConfigOutput) (rules : List (Option Router.ConfigOutput))
    (category : List Nat)
    (_hwf : ∀ o ∈ rules, o.isSome = true)
    (hdist : ∀ r : Router.ConfigOutput, some r ∈ rules →
        r.processor ≠ d.processor) :
    (Router.FindProcessor R (some d :: rules) category = some d.processor ↔
      ∀ o ∈ rules, Router.entryMatches R o category = false) ∧
    ((∃ o ∈ rules, Router.entryMatches R o category = true) →
      ∃ (i : Nat) (r : Router.ConfigOutput),
        rules[i]? = some (some r) ∧ R r.pattern category = true ∧
        (∀ j, j < i → ∀ o, rules[j]? = some o →
          Router.entryMatches R o category = false) ∧
        Router.FindProcessor R (some d :: rules) category = some r.processor) := by
  constructor
  · constructor
    · intro hfp o ho
      by_contra hmatch
      have hm : Router.entryMatches R o category = true := by
        cases hb : Router.entryMatches R o category
        · exact absurd hb hmatch
        · rfl
      cases hf : rules.find? (fun o => Router.entryMatches R o category) with
      | none =>
          rw [List.find?_eq_none] at hf
          exact hf o ho (by simp [hm])
      | some o0 =>
          have hp0 := List.find?_some hf
          cases o0 with
          | none => simp [Router.entryMatches] at hp0
          | some r =>
              have hval : Router.FindProcessor R (some d :: rules) category
                  = some r.processor := by
                simp [Router.FindProcessor, hf]
              rw [hval] at hfp
              exact hdist r (List.mem_of_find?_eq_some hf) (Option.some.inj hfp)
    · intro hall
      have hf : rules.find? (fun o => Router.entryMatches R o category) = none := by
        rw [List.find?_eq_none]
        intro x hx
        simp [hall x hx]
      simp [Router.FindProcessor, hf]
  · rintro ⟨o, ho, hm⟩
    cases hf : rules.find? (fun o => Router.entryMatches R o category) with
    | none =>
        rw [List.find?_eq_none] at hf
        exact absurd hm (by simpa using hf o ho)
    | some o0 =>
        have hp0 := List.find?_some hf
        cases o0 with
        | none => simp [Router.entryMatches] at hp0
        | some r =>
            obtain ⟨hpr, as, bs, hsplit, hall⟩ := List.find?_eq_some.mp hf
            refine ⟨as.length, r, ?_, ?_, ?_, ?_⟩
            · rw [hsplit, List.getElem?_append_right (le_refl as.length)]
              simp
            · simpa [Router.entryMatches] using hpr
            · intro j hj o1 ho1
              rw [hsplit, List.getElem?_append, if_pos hj] at ho1
              have ho1mem : o1 ∈ as := List.getElem?_mem ho1
              have := hall o1 ho1mem
              simpa using this
            · simp [Router.FindProcessor, hf]

/-- Witness for C6: default processor 0 with the single rule `"a" ↦ 1`;
on category `[97]` the rule matches first, so processor 1 is returned. -/
theorem c6_findProcessor_first_match_witness :
    ∃ (i : Nat) (r : Router.ConfigOutput),
      ([some ⟨"a", 1⟩] : List (Option Router.ConfigOutput))[i]? = some (some r) ∧
      (fun pat c => pat == "a" && c == [97]) r.pattern ([97] : List Nat) = true ∧
      (∀ j, j < i → ∀ o, ([some ⟨"a", 1⟩] :
          List (Option Router.ConfigOutput))[j]? = some o →
        Router.entryMatches (fun pat c => pat == "a" && c == [97]) o [97] = false) ∧
      Router.FindProcessor (fun pat c => pat == "a" && c == [97])
        (some ⟨"", 0⟩ :: [some ⟨"a", 1⟩]) [97] = some r.processor := by
  refine (c6_findProcessor_first_match (fun pat c => pat == "a" && c == [97])
    ⟨"", 0⟩ [some ⟨"a", 1⟩] [97] (by decide) ?_).2
    ⟨some ⟨"a", 1⟩, by simp, by decide⟩
  intro r hr
  simp only [List.mem_singleton, Option.some.injEq] at hr
  subst hr
  decide

/-- Claim C3: on a well-formed relay state (`incoming` reaches the queue
nodes `qs`, the non-empty chain to enqueue occupies fresh nodes `cs`, and
`incomingTail` points at the queue's last node whenever the queue is
non-empty), `WriteChain` always returns (it never blocks and has no
queue-length failure — `qs` is arbitrary), it signals the condition
variable, and it returns exactly `diskErr`: when `diskErr` is set the
state is untouched, otherwise the whole chain is appended at the tail of
the queue, no record payload is disturbed, and `incomingTail` is moved to
the new last node. -/
theorem c3_relay_writeChain_spec (h : Replicate.Heap) (v : Replicate.Vars)
    (c0 : Replicate.Ptr) (qs cs : List Replicate.Ptr)
    (hq : Replicate.IsChain h v.incoming qs)
    (hc : Replicate.IsChain h (some c0) cs)
    (hdisj : ∀ q ∈ qs, q ∉ cs)
    (htail : v.incoming ≠ none → v.incomingTail = qs.getLast?) :
    ∃ (h1 : Replicate.Heap) (v1 : Replicate.Vars),
      Replicate.WriteChain h v c0 = some (h1, v1, v.diskErr, true) ∧
      (v.diskErr ≠ none → h1 = h ∧ v1 = v) ∧
      (v.diskErr = none →
        Replicate.IsChain h1 v1.incoming (qs ++ cs) ∧
        v1.incomingTail = (qs ++ cs).getLast? ∧
        (∀ p : Replicate.Ptr,
          (h1[p]?).map Replicate.Node.val = (h[p]?).map Replicate.Node.val) ∧
        v1.closed = v.closed ∧ v1.diskErr = none) := by
  have hcs_ne : cs ≠ [] := Replicate.isChain_some_ne_nil hc
  obtain ⟨tc, ndc, hlastc, hgetc, hnextc⟩ := Replicate.isChain_last hc hcs_ne
  have hft : Replicate.findTail h h.length c0 = some tc := by
    rw [Replicate.findTail_eq cs c0 h.length hc (Replicate.isChain_length_le hc),
      hlastc]
  cases hde : v.diskErr with
  | some e =>
      refine ⟨h, v, ?_, fun _ => ⟨rfl, rfl⟩, fun hnone => Option.noConfusion hnone⟩
      simp [Replicate.WriteChain, hft, hde]
  | none =>
      cases hvi : v.incoming with
      | none =>
          have hqs : qs = [] := Replicate.isChain_none_eq (hvi ▸ hq)
          subst hqs
          refine ⟨h, { v with incoming := some c0, incomingTail := some tc },
            ?_, fun hne => absurd rfl hne, fun _ => ⟨?_, ?_, fun p => rfl, rfl, hde⟩⟩
          · simp [Replicate.WriteChain, hft, hde, hvi]
          · simpa using hc
          · simpa using hlastc.symm
      | some p0 =>
          have hqs_ne : qs ≠ [] := by
            intro hq0
            subst hq0
            exact Option.noConfusion (Replicate.isChain_nil_shape (hvi ▸ hq))
          have htl := htail (by rw [hvi]; simp)
          obtain ⟨tq, ndq, hlastq, hgetq, hnextq⟩ := Replicate.isChain_last hq hqs_ne
          rw [hlastq] at htl
          refine ⟨Replicate.setNext h tq (some c0),
            { v with incomingTail := some tc },
            ?_, fun hne => absurd rfl hne, fun _ => ⟨?_, ?_, ?_, rfl, hde⟩⟩
          · simp [Replicate.WriteChain, hft, hde, hvi, htl]
          · exact Replicate.isChain_append hc qs v.incoming tq hq hdisj hlastq
          · rw [List.getLast?_append_of_ne_nil qs hcs_ne, hlastc]
          · exact Replicate.setNext_val h tq (some c0)

/-- Witness for C3: a two-node heap where node 0 is the queued record and
node 1 the fresh chain; the enqueue succeeds and signals. -/
theorem c3_relay_writeChain_spec_witness :
    ∃ (h1 : Replicate.Heap) (v1 : Replicate.Vars),
      Replicate.WriteChain [⟨⟨[97], [49]⟩, none⟩, ⟨⟨[98], [50]⟩, none⟩]
        ⟨false, none, some 0, some 0⟩ 1 = some (h1, v1, none, true) := by
  obtain ⟨h1, v1, hw, -, -⟩ :=
    c3_relay_writeChain_spec [⟨⟨[97], [49]⟩, none⟩, ⟨⟨[98], [50]⟩, none⟩]
      ⟨false, none, some 0, some 0⟩ 1 [0] [1]
      (Replicate.IsChain.cons rfl Replicate.IsChain.nil)
      (Replicate.IsChain.cons rfl Replicate.IsChain.nil)
      (by decide)
      (fun _ => rfl)
  exact ⟨h1, v1, hw⟩

theorem serve_step_fail {dispatch : List Record → Option String}
    {it : Net.SItem} {rest : List Net.SItem} {c : List Record} {e : String}
    (hch : it.chain = some c) (hdc : dispatch c = some e) :
    Net.serve dispatch (it :: rest)
      = ([Net.SEv.dispatched c false], Net.SRes.failed) := by
  simp [Net.serve, hch, hdc]

theorem serve_step_ok_cont {dispatch : List Record → Option String}
    {it : Net.SItem} {rest : List Net.SItem} {c : List Record}
    (hch : it.chain = some c) (hdc : dispatch c = none)
    (hae : it.ackErr = none) :
    Net.serve dispatch (it :: rest)
      = (Net.SEv.dispatched c true :: Net.SEv.acked c ::
           (Net.serve dispatch rest).1,
         (Net.serve dispatch rest).2) := by
  simp [Net.serve, hch, hdc, hae]

theorem serve_step_ok_ack_eof {dispatch : List Record → Option String}
    {it : Net.SItem} {rest : List Net.SItem} {c : List Record}
    (hch : it.chain = some c) (hdc : dispatch c = none)
    (hae : it.ackErr = some Net.RErr.eof) :
    Net.serve dispatch (it :: rest)
      = ([Net.SEv.dispatched c true, Net.SEv.acked c], Net.SRes.graceful) := by
  simp [Net.serve, hch, hdc, hae]

theorem serve_step_ok_ack_fail {dispatch : List Record → Option String}
    {it : Net.SItem} {rest : List Net.SItem} {c : List Record} {re : Net.RErr}
    (hch : it.chain = some c) (hdc : dispatch c = none)
    (hae : it.ackErr = some re) (hne : re ≠ Net.RErr.eof) :
    Net.serve dispatch (it :: rest)
      = ([Net.SEv.dispatched c true, Net.SEv.acked c], Net.SRes.failed) := by
  cases re with
  | eof => exact absurd rfl hne
  | ioFail => simp [Net.serve, hch, hdc, hae]
  | corrupt => simp [Net.serve, hch, hdc, hae]
  | malformed => simp [Net.serve, hch, hdc, hae]

theorem serve_step_none_cont {dispatch : List Record → Option String}
    {it : Net.SItem} {rest : List Net.SItem}
    (hch : it.chain = none) (hre : it.readErr = none) :
    Net.serve dispatch (it :: rest) = Net.serve dispatch rest := by
  simp [Net.serve, hch, hre]

theorem serve_step_none_err {dispatch : List Record → Option String}
    {it : Net.SItem} {rest : List Net.SItem} {re : Net.RErr}
    (hch : it.chain = none) (hre : it.readErr = some re) :
    Net.serve dispatch (it :: rest)
      = ([], if re = Net.RErr.eof then Net.SRes.graceful else Net.SRes.failed) := by
  cases re with
  | eof => simp [Net.serve, hch, hre]
  | ioFail => simp [Net.serve, hch, hre]
  | corrupt => simp [Net.serve, hch, hre]
  | malformed => simp [Net.serve, hch, hre]

theorem serve_mem_dispatch_fail (dispatch : List Record → Option String) :
    ∀ (script : List Net.SItem) (c : List Record),
      Net.SEv.dispatched c false ∈ (Net.serve dispatch script).1 →
      (∃ e, dispatch c = some e) ∧
        (Net.serve dispatch script).2 = Net.SRes.failed := by
  intro script
  induction script with
  | nil => intro c hmem; simp [Net.serve] at hmem
  | cons it rest ih =>
      intro c hmem
      cases hch : it.chain with
      | some c0 =>
          cases hdc : dispatch c0 with
          | some e =>
              rw [serve_step_fail hch hdc] at hmem ⊢
              simp at hmem ⊢
              subst hmem
              exact ⟨e, hdc⟩
          | none =>
              cases hae : it.ackErr with
              | none =>
                  rw [serve_step_ok_cont hch hdc hae] at hmem ⊢
                  simp at hmem ⊢
                  exact ih c hmem
              | some re =>
                  by_cases hre : re = Net.RErr.eof
                  · subst hre
                    rw [serve_step_ok_ack_eof hch hdc hae] at hmem
                    simp at hmem
                  · rw [serve_step_ok_ack_fail hch hdc hae hre] at hmem
                    simp at hmem
      | none =>
          cases hre : it.readErr with
          | none =>
              rw [serve_step_none_cont hch hre] at hmem ⊢
              exact ih c hmem
          | some re =>
              rw [serve_step_none_err hch hre] at hmem
              simp at hmem

theorem serve_mem_acked (dispatch : List Record → Option String) :
    ∀ (script : List Net.SItem) (c : List Record),
      Net.SEv.acked c ∈ (Net.serve dispatch script).1 →
      dispatch c = none := by
  intro script
  induction script with
  | nil => intro c hmem; simp [Net.serve] at hmem
  | cons it rest ih =>
      intro c hmem
      cases hch : it.chain with
      | some c0 =>
          cases hdc : dispatch c0 with
          | some e =>
              rw [serve_step_fail hch hdc] at hmem
              simp at hmem
          | none =>
              cases hae : it.ackErr with
              | none =>
                  rw [serve_step_ok_cont hch hdc hae] at hmem
                  simp at hmem
                  rcases hmem with rfl | hmem1
                  · exact hdc
                  · exact ih c hmem1
              | some re =>
                  by_cases hre : re = Net.RErr.eof
                  · subst hre
                    rw [serve_step_ok_ack_eof hch hdc hae] at hmem
                    simp at hmem
                    subst hmem
                    exact hdc
                  · rw [serve_step_ok_ack_fail hch hdc hae hre] at hmem
                    simp at hmem
                    subst hmem
                    exact hdc
      | none =>
          cases hre : it.readErr with
          | none =>
              rw [serve_step_none_cont hch hre] at hmem
              exact ih c hmem
          | some re =>
              rw [serve_step_none_err hch hre] at hmem
              simp at hmem

theorem serve_acked_prev (dispatch : List Record → Option String) :
    ∀ (script : List Net.SItem) (i : Nat) (c : List Record),
      (Net.serve dispatch script).1[i]? = some (Net.SEv.acked c) →
      ∃ j, i = j + 1 ∧
        (Net.serve dispatch script).1[j]? = some (Net.SEv.dispatched c true) := by
  intro script
  induction script with
  | nil => intro i c hi; simp [Net.serve] at hi
  | cons it rest ih =>
      intro i c hi
      cases hch : it.chain with
      | some c0 =>
          cases hdc : dispatch c0 with
          | some e =>
              rw [serve_step_fail hch hdc] at hi
              cases i with
              | zero => simp at hi
              | succ n => simp at hi
          | none =>
              cases hae : it.ackErr with
              | none =>
                  rw [serve_step_ok_cont hch hdc hae] at hi ⊢
                  cases i with
                  | zero => simp at hi
                  | succ n =>
                      cases n with
                      | zero =>
                          simp at hi
                          subst hi
                          exact ⟨0, rfl, by simp⟩
                      | succ m =>
                          simp at hi
                          obtain ⟨j, hj, hjev⟩ := ih m c hi
                          subst hj
                          exact ⟨j + 2, rfl, by simpa using hjev⟩
              | some re =>
                  by_cases hre : re = Net.RErr.eof
                  · subst hre
                    rw [serve_step_ok_ack_eof hch hdc hae] at hi ⊢
                    cases i with
                    | zero => simp at hi
                    | succ n =>
                        cases n with
                        | zero =>
                            simp at hi
                            subst hi
                            exact ⟨0, rfl, by simp⟩
                        | succ m => simp at hi
                  · rw [serve_step_ok_ack_fail hch hdc hae hre] at hi ⊢
                    cases i with
                    | zero => simp at hi
                    | succ n =>
                        cases n with
                        | zero =>
                            simp at hi
                            subst hi
                            exact ⟨0, rfl, by simp⟩
                        | succ m => simp at hi
      | none =>
          cases hre : it.readErr with
          | none =>
              rw [serve_step_none_cont hch hre] at hi ⊢
              exact ih i c hi
          | some re =>
              rw [serve_step_none_err hch hre] at hi
              simp at hi

/-- Claim C4: in every serve-loop trace, an acknowledgement event for a
chain appears only immediately after that chain's successful dispatch
event; and when the dispatch of a chain returns an error, the loop result
is the error return (`failed`) and no acknowledgement for that chain
appears anywhere in the trace. -/
theorem c4_serve_ack_only_after_dispatch (dispatch : List Record → Option String)
    (script : List Net.SItem) :
    (∀ (i : Nat) (c : List Record),
       (Net.serve dispatch script).1[i]? = some (Net.SEv.acked c) →
       ∃ j, i = j + 1 ∧
         (Net.serve dispatch script).1[j]? = some (Net.SEv.dispatched c true)) ∧
    (∀ c : List Record,
       Net.SEv.dispatched c false ∈ (Net.serve dispatch script).1 →
       (Net.serve dispatch script).2 = Net.SRes.failed ∧
       Net.SEv.acked c ∉ (Net.serve dispatch script).1) := by
  refine ⟨serve_acked_prev dispatch script, ?_⟩
  intro c hmem
  obtain ⟨⟨e, hdc⟩, hres⟩ := serve_mem_dispatch_fail dispatch script c hmem
  refine ⟨hres, fun hack => ?_⟩
  rw [serve_mem_acked dispatch script c hack] at hdc
  exact Option.noConfusion hdc

/-- Witness for C4: a one-item script whose chain dispatches successfully;
the acknowledgement at index 1 of the trace is immediately preceded by
the successful dispatch at index 0. -/
theorem c4_serve_ack_only_after_dispatch_witness :
    ∃ j, (1 : Nat) = j + 1 ∧
      (Net.serve (fun _ => none)
        [⟨some [⟨[97], [49]⟩], none, none⟩]).1[j]?
        = some (Net.SEv.dispatched [⟨[97], [49]⟩] true) := by
  exact (c4_serve_ack_only_after_dispatch (fun _ => none)
    [⟨some [⟨[97], [49]⟩], none, none⟩]).1 1 [⟨[97], [49]⟩] rfl

/-- Claim C8.  The invariant is refuted by this reachable interleaving:
starting from the fresh state, `WriteChain` enqueues the single record at
node 0 (first conjunct, leaving `incoming = incomingTail = some 0`); the
CONNECTED loop detaches the queue (second conjunct); the send fails with
no concurrent enqueue, so the failure path re-prepends the detached chain
but leaves `incomingTail` nil (third conjunct) — the invariant now fails
(fourth conjunct: `incoming` is non-nil while `incomingTail` is not the
last reachable node), and the next `WriteChain` (of a fresh record at
node 1) dereferences the nil `incomingTail`, modelled as the crash result
`none` (fifth conjunct). -/
theorem c8_relay_tail_invariant_broken :
    Replicate.WriteChain [⟨⟨[97], [49]⟩, none⟩] ⟨false, none, none, none⟩ 0
      = some ([⟨⟨[97], [49]⟩, none⟩], ⟨false, none, some 0, some 0⟩, none, true) ∧
    Replicate.connectedDetach ⟨false, none, some 0, some 0⟩
      = (⟨false, none, none, none⟩, some 0, some 0) ∧
    Replicate.connectedSendFailed [⟨⟨[97], [49]⟩, none⟩]
        ⟨false, none, none, none⟩ 0 0
      = ([⟨⟨[97], [49]⟩, none⟩], ⟨false, none, some 0, none⟩) ∧
    Replicate.tailInvHolds [⟨⟨[97], [49]⟩, none⟩] ⟨false, none, some 0, none⟩
      = false ∧
    Replicate.WriteChain [⟨⟨[97], [49]⟩, none⟩, ⟨⟨[97], [50]⟩, none⟩]
      ⟨false, none, some 0, none⟩ 1 = none := by
  decide
